import Mathlib

/-!
Verification of the flamelet fractal-flame renderer core.

The development shallowly embeds the TypeScript sources:

* `src/variations.ts` — the variation library (the escape-time fractal
  warps, `linear`, and the `safeVariation` wrapper that guards every
  registry entry);
* `src/flame.ts` — `applyFlameFunction`, the affine+variation composer;
* `src/renderer.ts` — the cumulative-probability function selection of
  `renderFlame`;
* `src/strategies/base/context.ts` — `StrategyContext.finalize`
  (supersampled binning, downsampling, Reinhard tone map, gamma);
* `src/strategies/impl/angular-momentum.ts` — orbit momentum and its
  normalization scale;
* `src/strategies/base/palette.ts` — `parseHexColor` and
  `createPaletteFromArray`.

JavaScript numbers are modelled by `ExtNum`: an exact rational together
with the three non-finite values `NaN`, `Infinity` and `-Infinity`.
Arithmetic follows the IEEE rules for the non-finite values and overflows
to a signed infinity once the exact magnitude reaches `2^1024`, the upper
end of the double range.  Rounding and underflow of doubles are not
modelled: finite arithmetic is exact.
-/

set_option autoImplicit false

namespace Flamelet

/-- A JavaScript number: a finite (exact) rational, an infinity, or NaN. -/
inductive ExtNum where
  | fin (q : ℚ)
  | posInf
  | negInf
  | nan
  deriving DecidableEq, Repr

namespace ExtNum

/-- Doubles overflow to an infinity at `2^1024`. -/
def OVERFLOW : ℚ := 2 ^ 1024

/-- Pack an exact rational result into a JS number, overflowing to a
signed infinity at the double range boundary. -/
def ovf (q : ℚ) : ExtNum :=
  if OVERFLOW ≤ q then .posInf
  else if q ≤ -OVERFLOW then .negInf
  else .fin q

/-- `Number.isFinite`. -/
def isFinite : ExtNum → Bool
  | .fin _ => true
  | _ => false

/-- `NaN` test. -/
def isNan : ExtNum → Bool
  | .nan => true
  | _ => false

/-- JS `+` on numbers. -/
def add : ExtNum → ExtNum → ExtNum
  | .nan, _ => .nan
  | _, .nan => .nan
  | .posInf, .negInf => .nan
  | .negInf, .posInf => .nan
  | .posInf, _ => .posInf
  | _, .posInf => .posInf
  | .negInf, _ => .negInf
  | _, .negInf => .negInf
  | .fin a, .fin b => ovf (a + b)

/-- JS unary minus. -/
def neg : ExtNum → ExtNum
  | .fin q => .fin (-q)
  | .posInf => .negInf
  | .negInf => .posInf
  | .nan => .nan

/-- JS `-` on numbers. -/
def sub (a b : ExtNum) : ExtNum := add a (neg b)

/-- JS `*` on numbers. -/
def mul : ExtNum → ExtNum → ExtNum
  | .nan, _ => .nan
  | _, .nan => .nan
  | .posInf, .posInf => .posInf
  | .negInf, .negInf => .posInf
  | .posInf, .negInf => .negInf
  | .negInf, .posInf => .negInf
  | .posInf, .fin q => if q = 0 then .nan else if 0 < q then .posInf else .negInf
  | .fin q, .posInf => if q = 0 then .nan else if 0 < q then .posInf else .negInf
  | .negInf, .fin q => if q = 0 then .nan else if 0 < q then .negInf else .posInf
  | .fin q, .negInf => if q = 0 then .nan else if 0 < q then .negInf else .posInf
  | .fin a, .fin b => ovf (a * b)

/-- JS `<` (false whenever either side is NaN). -/
def jsLT : ExtNum → ExtNum → Bool
  | .nan, _ => false
  | _, .nan => false
  | .negInf, .negInf => false
  | .negInf, _ => true
  | _, .negInf => false
  | .posInf, _ => false
  | .fin _, .posInf => true
  | .fin a, .fin b => decide (a < b)

/-- `Math.min` (NaN if either argument is NaN). -/
def jsMin (a b : ExtNum) : ExtNum :=
  if isNan a || isNan b then .nan else if jsLT a b then a else b

/-- `Math.max` (NaN if either argument is NaN). -/
def jsMax (a b : ExtNum) : ExtNum :=
  if isNan a || isNan b then .nan else if jsLT a b then b else a

/-- `Math.abs`. -/
def jsAbs : ExtNum → ExtNum
  | .fin q => .fin |q|
  | .posInf => .posInf
  | .negInf => .posInf
  | .nan => .nan

/-- `Number.isFinite(x) ? x : 0`: the clamp the fractal warps apply to
their start point. -/
def toFin : ExtNum → ExtNum
  | .fin q => .fin q
  | _ => .fin 0

end ExtNum

/-- Named numeric variation parameters (`params` objects).  Parameter
values coming from preset JSON are finite, so they are modelled as exact
rationals. -/
abbrev Params := List (String × ℚ)

/-- First-match association lookup (JS object property access; keys are
unique in an object literal). -/
def lookupAssoc {α : Type} : List (String × α) → String → Option α
  | [], _ => none
  | (k, v) :: rest, name => if k = name then some v else lookupAssoc rest name

/-- `params.name ?? dflt`: read a named parameter with its documented
default. -/
def getParam (p : Params) (name : String) (dflt : ℚ) : ℚ :=
  (lookupAssoc p name).getD dflt

/-- The type of a variation function `(x, y, params?) → [x', y']`. -/
abbrev ExtVariation := ExtNum → ExtNum → Params → ExtNum × ExtNum

/-- `linear` from `variations.ts`: `(x, y) => [x, y]`. -/
def linear : ExtVariation := fun x y _ => (x, y)

/-- One step of the Mandelbrot/Julia recurrence
`x2 = zx*zx - zy*zy + cx; y2 = 2*zx*zy + cy` with JS evaluation order. -/
def warpStep (c z : ExtNum × ExtNum) : ExtNum × ExtNum :=
  (ExtNum.add (ExtNum.sub (ExtNum.mul z.1 z.1) (ExtNum.mul z.2 z.2)) c.1,
   ExtNum.add (ExtNum.mul (ExtNum.mul (.fin 2) z.1) z.2) c.2)

/-- One step of the burning-ship recurrence: the absolute values of the
components are squared. -/
def bsStep (c z : ExtNum × ExtNum) : ExtNum × ExtNum :=
  let ax := ExtNum.jsAbs z.1
  let ay := ExtNum.jsAbs z.2
  (ExtNum.add (ExtNum.sub (ExtNum.mul ax ax) (ExtNum.mul ay ay)) c.1,
   ExtNum.add (ExtNum.mul (ExtNum.mul (.fin 2) ax) ay) c.2)

/-- The loop-break test of the fractal warps:
`!isFinite(zx) || !isFinite(zy) || zx*zx + zy*zy > escapeRadius²`. -/
def escapes (escSq : ExtNum) (z : ExtNum × ExtNum) : Bool :=
  !(ExtNum.isFinite z.1) || !(ExtNum.isFinite z.2) ||
    ExtNum.jsLT escSq (ExtNum.add (ExtNum.mul z.1 z.1) (ExtNum.mul z.2 z.2))

/-- The iteration loop shared by the fractal warps: run `step` up to the
given number of times, stopping right after a step whose result is
non-finite or escapes (that result, finite or not, is returned). -/
def warpLoop (step : ExtNum × ExtNum → ExtNum × ExtNum) (escSq : ExtNum) :
    ℕ → ExtNum × ExtNum → ExtNum × ExtNum
  | 0, z => z
  | n + 1, z =>
    let next := step z
    if escapes escSq next then next else warpLoop step escSq n next

/-- Number of times `for (let i = 0; i < q; i++)` runs. -/
def iterCount (q : ℚ) : ℕ := (⌈q⌉).toNat

/-- `mandelbrotWarp` from `variations.ts`: `z ← z² + c` with `c` the
(non-finite-clamped) input point. -/
def mandelbrotWarp : ExtVariation := fun x y params =>
  let its := iterCount (getParam params "iterations" 15)
  let eR := getParam params "escapeRadius" 2
  let z0 := (ExtNum.toFin x, ExtNum.toFin y)
  warpLoop (warpStep z0) (ExtNum.mul (.fin eR) (.fin eR)) its z0

/-- `juliaWarp` from `variations.ts`: `z ← z² + c` with constant
`c = (params.cx ?? -0.4, params.cy ?? 0.6)`. -/
def juliaWarp : ExtVariation := fun x y params =>
  let its := iterCount (getParam params "iterations" 15)
  let eR := getParam params "escapeRadius" 2
  let c : ExtNum × ExtNum :=
    (.fin (getParam params "cx" (-2/5)), .fin (getParam params "cy" (3/5)))
  let z0 := (ExtNum.toFin x, ExtNum.toFin y)
  warpLoop (warpStep c) (ExtNum.mul (.fin eR) (.fin eR)) its z0

/-- `burningShipWarp` from `variations.ts`. -/
def burningShipWarp : ExtVariation := fun x y params =>
  let its := iterCount (getParam params "iterations" 15)
  let eR := getParam params "escapeRadius" 2
  let z0 := (ExtNum.toFin x, ExtNum.toFin y)
  warpLoop (bsStep z0) (ExtNum.mul (.fin eR) (.fin eR)) its z0

/-- `safeVariation` from `variations.ts`: substitute `(0,0)` whenever the
wrapped variation produces a non-finite coordinate.  (The `try/catch` of
the source is vacuous here: the embedded variations are total.) -/
def safeVariation (f : ExtVariation) : ExtVariation := fun x y params =>
  let v := f x y params
  if ExtNum.isFinite v.1 && ExtNum.isFinite v.2 then v else (.fin 0, .fin 0)

/-- The keys of the `rawVariations` registry object in `variations.ts`,
in source order.  Every entry of the `variations` registry is the
`safeVariation`-wrapped raw function of the same name. -/
def registeredVariationNames : List String :=
  ["linear", "swirl", "horseshoe", "sinusoidal", "spherical", "bubble",
   "polar", "handkerchief", "heart", "disc", "rings", "rings2", "fan",
   "spiral", "diamond", "ex", "waves", "fisheye", "popcorn", "eyefish",
   "blade", "bent", "cross", "cosine", "curl", "pdj", "juliaN", "fan2",
   "popcorn2", "mandelbrotWarp", "juliaWarp", "burningShipWarp", "blur",
   "hyperbolic", "mirrorx", "mirrory", "noise"]

/-- The 6-coefficient affine matrix `[a, b, c, d, e, f]` of a
`FlameFunction`. -/
structure Affine where
  a : ExtNum
  b : ExtNum
  c : ExtNum
  d : ExtNum
  e : ExtNum
  f : ExtNum
  deriving DecidableEq, Repr

/-- A `FlameFunction` as consumed by `applyFlameFunction`: the affine
matrix, the variation weight map (in insertion order), and the optional
per-variation parameters. -/
structure FlameFunction where
  affine : Affine
  variations : List (String × ExtNum)
  parameters : List (String × Params)

/-- The variation registry, `name → variation`.  The concrete registry of
`variations.ts` contains transcendental functions (sin, cos, atan2, …)
that have no exact rational embedding, so the registry is passed to
`applyFlameFunction` explicitly and the composer theorems are proved for
every registry, hence in particular for the concrete one. -/
abbrev Registry := String → Option ExtVariation

/-- `x0 = a*x + b*y + c` with JS evaluation order. -/
def affX (fn : FlameFunction) (x y : ExtNum) : ExtNum :=
  ExtNum.add (ExtNum.add (ExtNum.mul fn.affine.a x) (ExtNum.mul fn.affine.b y)) fn.affine.c

/-- `y0 = d*x + e*y + f` with JS evaluation order. -/
def affY (fn : FlameFunction) (x y : ExtNum) : ExtNum :=
  ExtNum.add (ExtNum.add (ExtNum.mul fn.affine.d x) (ExtNum.mul fn.affine.e y)) fn.affine.f

/-- `Math.max(-CLAMP_LIMIT, Math.min(CLAMP_LIMIT, v))` with
`CLAMP_LIMIT = 100`. -/
def clampC (v : ExtNum) : ExtNum :=
  ExtNum.jsMax (.fin (-100)) (ExtNum.jsMin (.fin 100) v)

/-- `(fn.parameters ?? {})[name]`, defaulting to the empty parameter
object. -/
def pmOf (fn : FlameFunction) : String → Params := fun n =>
  (lookupAssoc fn.parameters n).getD []

/-- The `for (const [name, weight] of Object.entries(fn.variations))`
loop of `applyFlameFunction`: skip zero weights, throw on an unregistered
name, skip variation results with a non-finite coordinate, and otherwise
accumulate `newX += weight*vx; newY += weight*vy`. -/
def accumVars (reg : Registry) (pm : String → Params) (cx cy : ExtNum) :
    List (String × ExtNum) → ExtNum → ExtNum → Except String (ExtNum × ExtNum)
  | [], nX, nY => .ok (nX, nY)
  | (name, w) :: rest, nX, nY =>
    if w = .fin 0 then accumVars reg pm cx cy rest nX nY
    else
      match reg name with
      | none => .error ("Unknown variation function: " ++ name)
      | some vf =>
        let v := vf cx cy (pm name)
        if ExtNum.isFinite v.1 && ExtNum.isFinite v.2 then
          accumVars reg pm cx cy rest (ExtNum.add nX (ExtNum.mul w v.1))
            (ExtNum.add nY (ExtNum.mul w v.2))
        else accumVars reg pm cx cy rest nX nY

/-- `applyFlameFunction` from `flame.ts`: affine transform, ±100 clamp,
weighted variation sum, and the affine-only fallback when the accumulated
sum is non-finite. -/
def applyFlameFunction (reg : Registry) (fn : FlameFunction) (x y : ExtNum) :
    Except String (ExtNum × ExtNum) :=
  match accumVars reg (pmOf fn) (clampC (affX fn x y)) (clampC (affY fn x y))
      fn.variations (.fin 0) (.fin 0) with
  | .error msg => .error msg
  | .ok (nX, nY) =>
    if !(ExtNum.isFinite nX) || !(ExtNum.isFinite nY) then .ok (affX fn x y, affY fn x y)
    else .ok (nX, nY)

/-! ### Chaos-game function selection (`renderFlame`, `renderer.ts`)

Per iteration the driver draws `r = Math.random() * totalProb` and runs
`cumProbs.findIndex((p) => r < p)`, falling back to the last function when
no cumulative probability exceeds `r`.  The random draw is modelled as the
input `r`. -/

/-- The running-total loop `totalProb += fn.probability;
cumProbs.push(totalProb)`. -/
def cumProbs (acc : ℚ) : List ℚ → List ℚ
  | [] => []
  | p :: rest => (acc + p) :: cumProbs (acc + p) rest

/-- The final value of the running total: `totalProb`. -/
def totalProb (probs : List ℚ) : ℚ := probs.foldl (· + ·) 0

/-- `Array.prototype.findIndex`, returning `none` for `-1`. -/
def jsFindIndex (p : ℚ → Bool) : List ℚ → Option ℕ
  | [] => none
  | a :: rest => if p a then some 0 else (jsFindIndex p rest).map (· + 1)

/-- `const fnIdx = cumProbs.findIndex((p) => r < p);
const index = fnIdx >= 0 ? fnIdx : functions.length - 1;`. -/
def selectIndex (probs : List ℚ) (r : ℚ) : ℕ :=
  match jsFindIndex (fun p => decide (r < p)) (cumProbs 0 probs) with
  | some i => i
  | none => probs.length - 1

/-! ### Angular-momentum strategy (`strategies/impl/angular-momentum.ts`)

Sample coordinates reaching a strategy are finite (the composer output is
accumulated as exact rationals here); the palette lookup and the shared
context are not needed for the momentum/scale claims. -/

/-- A flushed orbit: the buffered coordinates and the accumulated
angular-momentum proxy `total`. -/
structure AMOrbit where
  xs : List ℚ
  ys : List ℚ
  total : ℚ
  deriving DecidableEq, Repr

/-- The `pushOrbit` momentum loop:
`total += (xs[i]-xs[i-1]) * ys[i] - (ys[i]-ys[i-1]) * xs[i]` for
`i = 1 .. xs.length-1` (the two coordinate arrays grow in lockstep). -/
def amMomentum : List ℚ → List ℚ → ℚ
  | x0 :: x1 :: xr, y0 :: y1 :: yr =>
    ((x1 - x0) * y1 - (y1 - y0) * x1) + amMomentum (x1 :: xr) (y1 :: yr)
  | _, _ => 0

/-- Strategy accumulation state: flushed orbits plus the current buffers. -/
structure AMState where
  orbits : List AMOrbit
  xs : List ℚ
  ys : List ℚ

/-- `pushOrbit`: flush the current buffers as one orbit. -/
def amPushOrbit (st : AMState) : AMState :=
  ⟨st.orbits ++ [⟨st.xs, st.ys, amMomentum st.xs st.ys⟩], [], []⟩

/-- `accumulate(sample)`: push the coordinates and flush once the buffer
reaches `orbitLength`. -/
def amAccum (orbitLength : ℕ) (st : AMState) (s : ℚ × ℚ) : AMState :=
  let st' : AMState := ⟨st.orbits, st.xs ++ [s.1], st.ys ++ [s.2]⟩
  if orbitLength ≤ st'.xs.length then amPushOrbit st' else st'

/-- Feed a whole sample stream through `accumulate`. -/
def amRun (orbitLength : ℕ) (samples : List (ℚ × ℚ)) : AMState :=
  samples.foldl (amAccum orbitLength) ⟨[], [], []⟩

/-- The orbits visible to `finalize`: the accumulated ones plus the
trailing partial orbit when it holds more than one point
(`if (xs.length > 1) pushOrbit()`). -/
def amFlushed (orbitLength : ℕ) (samples : List (ℚ × ℚ)) : List AMOrbit :=
  let st := amRun orbitLength samples
  if 1 < st.xs.length then (amPushOrbit st).orbits else st.orbits

/-- `maxTotal`: `orbits.reduce((m, o) => Math.max(m, Math.abs(o.total)), 0)`
(`0` when there are no orbits, exactly as in the source). -/
def amMaxTotal (orbits : List AMOrbit) : ℚ :=
  orbits.foldl (fun m o => max m |o.total|) 0

/-- `const scale = momentumScale != null ? momentumScale : maxTotal || 1;`
(JS `||` turns a zero `maxTotal` into `1`). -/
def amScale (momentumScale : Option ℚ) (orbits : List AMOrbit) : ℚ :=
  match momentumScale with
  | some s => s
  | none => if amMaxTotal orbits = 0 then 1 else amMaxTotal orbits

/-- `t = t < 0 ? 0 : t > 1 ? 1 : t`. -/
def clamp01 (t : ℚ) : ℚ := if t < 0 then 0 else if t > 1 then 1 else t

/-- The palette index assigned to one orbit at finalize:
`clamp(|total| / scale, 0, 1)`. -/
def amT (momentumScale : Option ℚ) (orbits : List AMOrbit) (o : AMOrbit) : ℚ :=
  clamp01 (|o.total| / amScale momentumScale orbits)

/-! ### Shared accumulation context (`strategies/base/context.ts`)

`StrategyContext` buffers committed samples and, at `finalize`, bins them
into a supersampled grid, downsamples, tone-maps and gamma-corrects into
an RGBA byte buffer.  Committed coordinates and colors are finite, so they
are modelled as exact rationals; only the `Math.pow(·, 1/gamma)` step
needs the reals. -/

/-- One committed sample: coordinates and RGB color. -/
structure CSample where
  x : ℚ
  y : ℚ
  r : ℚ
  g : ℚ
  b : ℚ
  deriving DecidableEq, Repr

/-- The context state as it stands at `finalize` time. -/
structure CtxState where
  width : ℕ
  height : ℕ
  supersample : ℚ
  gamma : ℚ
  samples : List CSample

/-- `this.scale = Math.max(1, Math.floor(options.supersample))`. -/
def ctxScale (st : CtxState) : ℕ := max 1 (⌊st.supersample⌋.toNat)

/-- The running minimum `minX` maintained by `commitSample`: the minimum
of the committed x coordinates.  (With no samples the source leaves it at
`Infinity`; the value is then never read, so any default serves.) -/
def minXOf (st : CtxState) : ℚ :=
  match st.samples.map CSample.x with
  | [] => 0
  | a :: rest => rest.foldl min a

/-- The running maximum `maxX`. -/
def maxXOf (st : CtxState) : ℚ :=
  match st.samples.map CSample.x with
  | [] => 0
  | a :: rest => rest.foldl max a

/-- The running minimum `minY`. -/
def minYOf (st : CtxState) : ℚ :=
  match st.samples.map CSample.y with
  | [] => 0
  | a :: rest => rest.foldl min a

/-- The running maximum `maxY`. -/
def maxYOf (st : CtxState) : ℚ :=
  match st.samples.map CSample.y with
  | [] => 0
  | a :: rest => rest.foldl max a

/-- `const rangeX = maxX - minX || 1;` (JS `||` replaces a zero range by
`1`). -/
def rangeX (st : CtxState) : ℚ :=
  if maxXOf st - minXOf st = 0 then 1 else maxXOf st - minXOf st

/-- `const rangeY = maxY - minY || 1;`. -/
def rangeY (st : CtxState) : ℚ :=
  if maxYOf st - minYOf st = 0 then 1 else maxYOf st - minYOf st

/-- `highWidth = width * scale`. -/
def highWidth (st : CtxState) : ℕ := st.width * ctxScale st

/-- `highHeight = height * scale`. -/
def highHeight (st : CtxState) : ℕ := st.height * ctxScale st

/-- The supersampled grid cell a sample lands in:
`px = Math.floor((x - minX) / rangeX * (highWidth - 1))`,
`py = Math.floor((1 - (y - minY) / rangeY) * (highHeight - 1))`,
discarded (`none`) when out of bounds. -/
def cellOf (st : CtxState) (s : CSample) : Option ℕ :=
  let px : ℤ := ⌊(s.x - minXOf st) / rangeX st * ((highWidth st : ℚ) - 1)⌋
  let py : ℤ := ⌊(1 - (s.y - minYOf st) / rangeY st) * ((highHeight st : ℚ) - 1)⌋
  if 0 ≤ px ∧ px < (highWidth st : ℤ) ∧ 0 ≤ py ∧ py < (highHeight st : ℤ) then
    some (py * (highWidth st : ℤ) + px).toNat
  else none

/-- `hist[idx]` after the binning loop: each in-bounds sample increments
its cell once, so the count of samples landing in the cell. -/
def hist (st : CtxState) (idx : ℕ) : ℕ :=
  st.samples.countP (fun s => cellOf st s == some idx)

/-- `colorBuf[idx*3]` after the binning loop: the red components of the
samples landing in the cell are summed. -/
def cellR (st : CtxState) (idx : ℕ) : ℚ :=
  ((st.samples.filter (fun s => cellOf st s == some idx)).map CSample.r).sum

/-- `colorBuf[idx*3 + 1]` after the binning loop. -/
def cellG (st : CtxState) (idx : ℕ) : ℚ :=
  ((st.samples.filter (fun s => cellOf st s == some idx)).map CSample.g).sum

/-- `colorBuf[idx*3 + 2]` after the binning loop. -/
def cellB (st : CtxState) (idx : ℕ) : ℚ :=
  ((st.samples.filter (fun s => cellOf st s == some idx)).map CSample.b).sum

/-- The grid index of cell `(i, j)` of output pixel `(col, row)`:
`(row*scale + j) * highWidth + (col*scale + i)`. -/
def blockIdx (st : CtxState) (col row j i : ℕ) : ℕ :=
  (row * ctxScale st + j) * highWidth st + (col * ctxScale st + i)

/-- The downsampling loop's `count` for output pixel `(col, row)`: hit
counts summed over the pixel's `scale × scale` block of grid cells. -/
def blockCount (st : CtxState) (col row : ℕ) : ℕ :=
  Finset.sum (Finset.range (ctxScale st)) fun j =>
    Finset.sum (Finset.range (ctxScale st)) fun i => hist st (blockIdx st col row j i)

/-- The downsampling loop's `sumR`. -/
def blockR (st : CtxState) (col row : ℕ) : ℚ :=
  Finset.sum (Finset.range (ctxScale st)) fun j =>
    Finset.sum (Finset.range (ctxScale st)) fun i => cellR st (blockIdx st col row j i)

/-- The downsampling loop's `sumG`. -/
def blockG (st : CtxState) (col row : ℕ) : ℚ :=
  Finset.sum (Finset.range (ctxScale st)) fun j =>
    Finset.sum (Finset.range (ctxScale st)) fun i => cellG st (blockIdx st col row j i)

/-- The downsampling loop's `sumB`. -/
def blockB (st : CtxState) (col row : ℕ) : ℚ :=
  Finset.sum (Finset.range (ctxScale st)) fun j =>
    Finset.sum (Finset.range (ctxScale st)) fun i => cellB st (blockIdx st col row j i)

/-- The tone-mapped, gamma-corrected byte for one channel with HDR value
`v`: `Math.floor(Math.pow(v / (1 + v), 1 / gamma) * 255)`. -/
noncomputable def toneByte (gamma v : ℚ) : ℤ :=
  ⌊Real.rpow ((v : ℝ) / (1 + (v : ℝ))) (1 / (gamma : ℝ)) * 255⌋

/-- Storing into a `Uint8ClampedArray` clamps to the byte range. -/
def clampByte (z : ℤ) : ℤ := min 255 (max 0 z)

/-- The HDR average for one channel: `sum * (1 / (scale * scale))`. -/
def hdrOf (st : CtxState) (sum : ℚ) : ℚ :=
  sum * (1 / ((ctxScale st : ℚ) * (ctxScale st : ℚ)))

/-- Write one output pixel (`p = row*width + col`, as enumerated by the
`for y { for x { … } }` loop): when the pixel's block count is positive,
store the three tone-mapped channel bytes and alpha `255` at offsets
`4p .. 4p+3`; otherwise leave the buffer untouched. -/
noncomputable def writePix (st : CtxState) (buf : ℕ → ℤ) (p : ℕ) : ℕ → ℤ :=
  let col := p % st.width
  let row := p / st.width
  if 0 < blockCount st col row then
    fun off =>
      if off = 4 * p then clampByte (toneByte st.gamma (hdrOf st (blockR st col row)))
      else if off = 4 * p + 1 then clampByte (toneByte st.gamma (hdrOf st (blockG st col row)))
      else if off = 4 * p + 2 then clampByte (toneByte st.gamma (hdrOf st (blockB st col row)))
      else if off = 4 * p + 3 then 255
      else buf off
  else buf

/-- `StrategyContext.finalize`: run the per-pixel writing loop over every
output pixel in row-major order, starting from the caller's buffer. -/
noncomputable def finalizeBuf (st : CtxState) (buf0 : ℕ → ℤ) : ℕ → ℤ :=
  (List.range (st.width * st.height)).foldl (writePix st) buf0

/-! ### Palette hex parsing (`strategies/base/palette.ts`) -/

/-- A parsed RGB color; a channel is `none` when the JS computation
produced `NaN` (a failed `parseInt`). -/
abbrev HexColor := Option ℚ × Option ℚ × Option ℚ

/-- Hexadecimal digit test, as `parseInt(·, 16)` accepts: the code-point
ranges of `0`–`9` (48–57), `a`–`f` (97–102) and `A`–`F` (65–70). -/
def isHexDigitChar (c : Char) : Bool :=
  (decide (48 ≤ c.toNat) && decide (c.toNat ≤ 57)) ||
  (decide (97 ≤ c.toNat) && decide (c.toNat ≤ 102)) ||
  (decide (65 ≤ c.toNat) && decide (c.toNat ≤ 70))

/-- Value of a hexadecimal digit. -/
def hexVal (c : Char) : ℕ :=
  if decide (48 ≤ c.toNat) && decide (c.toNat ≤ 57) then c.toNat - 48
  else if decide (97 ≤ c.toNat) && decide (c.toNat ≤ 102) then c.toNat - 87
  else if decide (65 ≤ c.toNat) && decide (c.toNat ≤ 70) then c.toNat - 55
  else 0

/-- JS whitespace characters relevant to `parseInt`'s leading trim
(space 32, tab 9, newline 10, carriage return 13 are modelled). -/
def isJsWhitespace (c : Char) : Bool :=
  decide (c.toNat = 32) || decide (c.toNat = 9) ||
  decide (c.toNat = 10) || decide (c.toNat = 13)

/-- Strip the optional `0x`/`0X` prefix `parseInt(·, 16)` accepts. -/
def strip0x (l : List Char) : List Char :=
  match l with
  | c0 :: c1 :: r => if c0 = '0' ∧ (c1 = 'x' ∨ c1 = 'X') then r else l
  | _ => l

/-- The longest leading run of hex digits, `none` when it is empty
(`parseInt` yields `NaN` then, and silently ignores trailing junk). -/
def parseHexDigits (l : List Char) : Option ℕ :=
  let ds := l.takeWhile isHexDigitChar
  if ds.isEmpty then none
  else some (ds.foldl (fun a c => a * 16 + hexVal c) 0)

/-- `parseInt(s, 16)`: trim leading whitespace, accept an optional sign
and an optional `0x` prefix, then parse the longest hex-digit prefix;
`none` models `NaN`. -/
def jsParseIntHex (l : List Char) : Option ℤ :=
  let l1 := l.dropWhile isJsWhitespace
  match l1 with
  | c :: rest =>
    if c = '-' then (parseHexDigits (strip0x rest)).map (fun n => -(n : ℤ))
    else if c = '+' then (parseHexDigits (strip0x rest)).map (fun n => (n : ℤ))
    else (parseHexDigits (strip0x (c :: rest))).map (fun n => (n : ℤ))
  | [] => none

/-- One channel of `parseHexColor`: `parseInt(pair, 16) / 255`. -/
def hexChannel (pair : List Char) : Option ℚ :=
  (jsParseIntHex pair).map (fun n => (n : ℚ) / 255)

/-- `hex.startsWith('#') ? hex.slice(1) : hex`. -/
def stripHash (l : List Char) : List Char :=
  match l with
  | c :: r => if c = '#' then r else c :: r
  | [] => []

/-- `parseHexColor` from `palette.ts`, on the character list of the input:
after optionally stripping `#`, a length-3 string doubles each digit and a
length-6 string splits into pairs; any other length throws. -/
def parseHexColorL (l : List Char) : Except String HexColor :=
  match stripHash l with
  | [c0, c1, c2] =>
    .ok (hexChannel [c0, c0], hexChannel [c1, c1], hexChannel [c2, c2])
  | [c0, c1, c2, c3, c4, c5] =>
    .ok (hexChannel [c0, c1], hexChannel [c2, c3], hexChannel [c4, c5])
  | _ => .error ("Invalid hex color: " ++ String.mk l)

/-- `parseHexColor` on a string. -/
def parseHexColor (s : String) : Except String HexColor :=
  parseHexColorL s.toList

/-- The `colors.map(parseHexColor)` step of `createPaletteFromArray`: the
only failing step of palette construction from an inline hex array (the
returned closure merely interpolates the parsed stops). -/
def createPaletteRGB : List String → Except String (List HexColor)
  | [] => .ok []
  | c :: rest =>
    match parseHexColor c with
    | .error e => .error e
    | .ok col =>
      match createPaletteRGB rest with
      | .error e => .error e
      | .ok cols => .ok (col :: cols)

/-- The form the specification calls well-formed: `#rgb` or `#rrggbb`
with valid hexadecimal digits.  (Spec-side definition, for comparison
with the behaviour of `parseHexColorL`.) -/
def specHexForm (s : String) : Bool :=
  match s.toList with
  | [c0, c1, c2, c3] =>
    decide (c0 = '#') && isHexDigitChar c1 && isHexDigitChar c2 && isHexDigitChar c3
  | [c0, c1, c2, c3, c4, c5, c6] =>
    decide (c0 = '#') && isHexDigitChar c1 && isHexDigitChar c2 && isHexDigitChar c3 &&
    isHexDigitChar c4 && isHexDigitChar c5 && isHexDigitChar c6
  | _ => false

/-! ## Theorems -/

/-- Clamping a non-finite value to zero is idempotent. -/
theorem toFin_idem (x : ExtNum) : ExtNum.toFin (ExtNum.toFin x) = ExtNum.toFin x := by
  cases x <;> rfl

/-- Claim C1, counterexample: `juliaWarp` is a registered variation, yet
its safety-wrapped form applied to NaN coordinates (with one iteration)
returns the finite point `(-0.4, 0.6)`, not `(0, 0)`: the warp clamps the
non-finite input to zero, iterates from the Julia constant, and the
wrapper passes the finite result through. -/
theorem C1_counterexample :
    "juliaWarp" ∈ registeredVariationNames ∧
    safeVariation juliaWarp .nan .nan [("iterations", 1)] = (.fin (-2/5), .fin (3/5)) ∧
    ExtNum.fin (-2/5) ≠ ExtNum.fin 0 := by
  refine ⟨by simp [registeredVariationNames], ?_, by simp⟩
  simp only [safeVariation, juliaWarp, warpLoop, warpStep, escapes, getParam, iterCount,
    lookupAssoc, ExtNum.mul, ExtNum.add, ExtNum.sub, ExtNum.neg, ExtNum.toFin, ExtNum.ovf,
    ExtNum.isFinite, ExtNum.jsLT, ExtNum.OVERFLOW, String.reduceEq, reduceIte,
    Option.getD_some, Option.getD_none]
  norm_num

/-- Claim C1, amended: for every variation function (in particular every
registered one) and any input, the safety wrapper is total (it never
raises) and returns a point with two finite coordinates; whenever the
underlying variation's result has a non-finite coordinate the wrapper
substitutes exactly `(0, 0)` — but a variation that produces a finite
point from non-finite input (`juliaWarp`, the stochastic `blur`) has that
point passed through unchanged, so the output is not always `(0, 0)`. -/
theorem C1_safe_wrapper_total (f : ExtVariation) (x y : ExtNum) (params : Params) :
    (ExtNum.isFinite (safeVariation f x y params).1 = true ∧
     ExtNum.isFinite (safeVariation f x y params).2 = true) ∧
    ((ExtNum.isFinite (f x y params).1 && ExtNum.isFinite (f x y params).2) = false →
      safeVariation f x y params = (.fin 0, .fin 0)) := by
  refine ⟨?_, ?_⟩
  · simp only [safeVariation]
    cases h : (ExtNum.isFinite (f x y params).1 && ExtNum.isFinite (f x y params).2) with
    | true =>
      rcases Bool.and_eq_true_iff.mp h with ⟨h1, h2⟩
      simp [h, h1, h2]
    | false => simp [h, ExtNum.isFinite]
  · intro hf
    simp only [safeVariation, hf]
    simp

/-- Claim C1 witness at a concrete variation whose raw result is
non-finite: the wrapper substitutes `(0, 0)`. -/
theorem C1_witness :
    safeVariation (fun _ _ _ => (.posInf, .fin 0)) .nan .nan [] = (.fin 0, .fin 0) :=
  (C1_safe_wrapper_total (fun _ _ _ => (.posInf, .fin 0)) .nan .nan []).2 rfl

/-- Claim C2, counterexample: `mandelbrotWarp` on the finite input
`(2^600, 0)` overflows on the first squaring, breaks, and returns the
non-finite point `(Infinity, 0)` — the variation itself does not return
the last finite state (the safety wrapper, not the warp, restores
finiteness). -/
theorem C2_counterexample :
    mandelbrotWarp (.fin (2^600)) (.fin 0) [] = (.posInf, .fin 0) ∧
    ExtNum.isFinite .posInf = false := by
  refine ⟨?_, rfl⟩
  simp only [mandelbrotWarp, warpLoop, warpStep, escapes, getParam, iterCount, lookupAssoc,
    ExtNum.mul, ExtNum.add, ExtNum.sub, ExtNum.neg, ExtNum.toFin, ExtNum.ovf,
    ExtNum.isFinite, ExtNum.jsLT, ExtNum.OVERFLOW, Option.getD_some, Option.getD_none]
  norm_num

/-- Claim C2, amended: every escape-time warp clamps non-finite input
coordinates to zero before iterating (its result equals the result on the
clamped input), and the iteration loop breaks immediately when a step
produces a non-finite iterate — returning that iterate itself, which may
be non-finite. -/
theorem C2_warp_clamp_and_break :
    (∀ (x y : ExtNum) (params : Params),
      mandelbrotWarp x y params = mandelbrotWarp (ExtNum.toFin x) (ExtNum.toFin y) params ∧
      juliaWarp x y params = juliaWarp (ExtNum.toFin x) (ExtNum.toFin y) params ∧
      burningShipWarp x y params = burningShipWarp (ExtNum.toFin x) (ExtNum.toFin y) params) ∧
    (∀ (step : ExtNum × ExtNum → ExtNum × ExtNum) (escSq : ExtNum) (n : ℕ)
        (z : ExtNum × ExtNum),
      (ExtNum.isFinite (step z).1 && ExtNum.isFinite (step z).2) = false →
      warpLoop step escSq (n + 1) z = step z) := by
  constructor
  · intro x y params
    refine ⟨?_, ?_, ?_⟩ <;>
      simp only [mandelbrotWarp, juliaWarp, burningShipWarp, toFin_idem]
  · intro step escSq n z h
    have hesc : escapes escSq (step z) = true := by
      rcases Bool.and_eq_false_iff.mp h with h1 | h1 <;> simp [escapes, h1]
    simp only [warpLoop]
    rw [if_pos hesc]

/-- Claim C2 witness: the clamp equation at a NaN input, and the
immediate break of the 15-iteration loop at the overflowing input of the
counterexample. -/
theorem C2_witness :
    mandelbrotWarp .nan (.fin 0) [] = mandelbrotWarp (.fin 0) (.fin 0) [] ∧
    warpLoop (warpStep (.fin (2^600), .fin 0)) (.fin 4) 15 (.fin (2^600), .fin 0) =
      warpStep (.fin (2^600), .fin 0) (.fin (2^600), .fin 0) := by
  constructor
  · exact (C2_warp_clamp_and_break.1 .nan (.fin 0) []).1
  · refine C2_warp_clamp_and_break.2 _ _ 14 _ ?_
    simp only [warpStep, ExtNum.mul, ExtNum.add, ExtNum.sub, ExtNum.neg, ExtNum.ovf,
      ExtNum.isFinite, ExtNum.OVERFLOW]
    norm_num

/-- Exact results strictly inside the double range are not changed by the
overflow check. -/
theorem ovf_eq_fin {q : ℚ} (h1 : q < ExtNum.OVERFLOW) (h2 : -ExtNum.OVERFLOW < q) :
    ExtNum.ovf q = .fin q := by
  unfold ExtNum.ovf
  rw [if_neg (by linarith), if_neg (by linarith)]

/-- Values within the composer's clamp bound are within the double range. -/
theorem ovf_eq_fin_of_abs {q : ℚ} (h : |q| ≤ 100) : ExtNum.ovf q = .fin q := by
  obtain ⟨hl, hr⟩ := abs_le.mp h
  have hb : (100 : ℚ) < ExtNum.OVERFLOW := by norm_num [ExtNum.OVERFLOW]
  exact ovf_eq_fin (by linarith) (by linarith)

/-- The ±100 clamp is the identity on finite values within the bound. -/
theorem clampC_fin {x : ℚ} (h : |x| ≤ 100) : clampC (.fin x) = .fin x := by
  obtain ⟨hl, hr⟩ := abs_le.mp h
  have hmin : ExtNum.jsMin (.fin 100) (.fin x) = .fin x := by
    simp only [ExtNum.jsMin, ExtNum.isNan, Bool.or_self, Bool.false_or, ExtNum.jsLT,
      if_false, Bool.false_eq_true]
    rw [if_neg (by simpa using not_lt.mpr hr)]
  have hmax : ExtNum.jsMax (.fin (-100)) (.fin x) = .fin x := by
    simp only [ExtNum.jsMax, ExtNum.isNan, Bool.or_self, Bool.false_or, ExtNum.jsLT,
      if_false, Bool.false_eq_true]
    rcases lt_or_eq_of_le hl with hlt | heq
    · rw [if_pos (by simpa using hlt)]
    · subst heq
      simp
  unfold clampC
  rw [hmin, hmax]

/-- The accumulation loop skips every zero-weight entry: with an all-zero
weight map it returns the accumulators untouched, looking nothing up. -/
theorem accumVars_all_zero (reg : Registry) (pm : String → Params) (cx cy : ExtNum) :
    ∀ (entries : List (String × ExtNum)) (nX nY : ExtNum),
      (∀ p ∈ entries, p.2 = ExtNum.fin 0) →
      accumVars reg pm cx cy entries nX nY = .ok (nX, nY) := by
  intro entries
  induction entries with
  | nil => intro nX nY _; rfl
  | cons e rest ih =>
    intro nX nY hz
    obtain ⟨name, w⟩ := e
    have hw : w = ExtNum.fin 0 := hz (name, w) (List.mem_cons_self _ _)
    simp only [accumVars, if_pos hw]
    exact ih nX nY fun p hp => hz p (List.mem_cons_of_mem _ hp)

/-- Claim C10: a `FlameFunction` whose variation map is empty or has only
zero weights composes to exactly `(0, 0)` on every finite input, whatever
the affine coefficients: the zero-initialized accumulators are returned
untouched, they are finite, so the affine-only fallback is not taken. -/
theorem C10_zero_weights (reg : Registry) (fn : FlameFunction) (x y : ExtNum)
    (hz : ∀ p ∈ fn.variations, p.2 = ExtNum.fin 0)
    (hx : ExtNum.isFinite x = true) (hy : ExtNum.isFinite y = true) :
    applyFlameFunction reg fn x y = .ok (.fin 0, .fin 0) := by
  unfold applyFlameFunction
  rw [accumVars_all_zero reg (pmOf fn) _ _ fn.variations (.fin 0) (.fin 0) hz]
  simp [ExtNum.isFinite]

/-- Claim C10 witness: a zero-weight map with an unregistered name and
NaN affine coefficients still yields `(0, 0)`. -/
theorem C10_witness :
    applyFlameFunction (fun _ => none)
      ⟨⟨.nan, .fin 0, .fin 0, .fin 0, .nan, .fin 0⟩, [("mystery", .fin 0)], []⟩
      (.fin 1) (.fin 2) = .ok (.fin 0, .fin 0) :=
  C10_zero_weights _ _ _ _ (by simp) rfl rfl

/-- Claim C5: whenever the accumulation loop completes (no unregistered
non-zero-weight name) with a non-finite weighted sum, the composer does
not throw and returns the unclamped affine-only point
`(a·x + b·y + c, d·x + e·y + f)`. -/
theorem C5_affine_fallback (reg : Registry) (fn : FlameFunction) (x y nX nY : ExtNum)
    (hx : ExtNum.isFinite x = true) (hy : ExtNum.isFinite y = true)
    (hacc : accumVars reg (pmOf fn) (clampC (affX fn x y)) (clampC (affY fn x y))
        fn.variations (.fin 0) (.fin 0) = .ok (nX, nY))
    (hnf : (ExtNum.isFinite nX && ExtNum.isFinite nY) = false) :
    applyFlameFunction reg fn x y = .ok (affX fn x y, affY fn x y) := by
  unfold applyFlameFunction
  rw [hacc]
  have hcond : (!(ExtNum.isFinite nX) || !(ExtNum.isFinite nY)) = true := by
    rcases Bool.and_eq_false_iff.mp hnf with h | h <;> simp [h]
  simp only [hcond, if_true]

/-- Claim C5 witness: a variation of weight `2^600` returning `2^600`
overflows the accumulator to `Infinity`; the composer falls back to the
affine point `(0, 0)` of the identity matrix at the origin. -/
theorem C5_witness :
    applyFlameFunction (fun n => if n = "big" then some (fun _ _ _ => (.fin (2^600), .fin 0)) else none)
      ⟨⟨.fin 1, .fin 0, .fin 0, .fin 0, .fin 1, .fin 0⟩, [("big", .fin (2^600))], []⟩
      (.fin 0) (.fin 0) = .ok (.fin 0, .fin 0) := by
  have hacc : accumVars
      (fun n => if n = "big" then some (fun _ _ _ => (.fin (2^600), .fin 0)) else none)
      (pmOf ⟨⟨.fin 1, .fin 0, .fin 0, .fin 0, .fin 1, .fin 0⟩, [("big", .fin (2^600))], []⟩)
      (clampC (affX ⟨⟨.fin 1, .fin 0, .fin 0, .fin 0, .fin 1, .fin 0⟩, [("big", .fin (2^600))], []⟩ (.fin 0) (.fin 0)))
      (clampC (affY ⟨⟨.fin 1, .fin 0, .fin 0, .fin 0, .fin 1, .fin 0⟩, [("big", .fin (2^600))], []⟩ (.fin 0) (.fin 0)))
      [("big", .fin (2^600))] (.fin 0) (.fin 0) = .ok (.posInf, .fin 0) := by
    simp only [accumVars, affX, affY, clampC, pmOf, lookupAssoc, ExtNum.mul, ExtNum.add,
      ExtNum.ovf, ExtNum.isFinite, ExtNum.isNan, ExtNum.jsMin, ExtNum.jsMax, ExtNum.jsLT,
      ExtNum.OVERFLOW, String.reduceEq, reduceIte, Option.getD_some, Option.getD_none]
    norm_num
  have h := C5_affine_fallback
      (fun n => if n = "big" then some (fun _ _ _ => (.fin (2^600), .fin 0)) else none)
      ⟨⟨.fin 1, .fin 0, .fin 0, .fin 0, .fin 1, .fin 0⟩, [("big", .fin (2^600))], []⟩
      (.fin 0) (.fin 0) .posInf (.fin 0) rfl rfl hacc rfl
  rw [h]
  simp only [affX, affY, ExtNum.mul, ExtNum.add, ExtNum.ovf, ExtNum.OVERFLOW]
  norm_num

/-- Error behaviour of the accumulation loop: it throws exactly when some
entry has non-zero weight and an unregistered name (zero-weight entries
are skipped before lookup; finite-filtering never throws). -/
theorem accumVars_error_iff (reg : Registry) (pm : String → Params) (cx cy : ExtNum) :
    ∀ (entries : List (String × ExtNum)) (nX nY : ExtNum),
      (∃ msg, accumVars reg pm cx cy entries nX nY = .error msg) ↔
        ∃ p ∈ entries, p.2 ≠ ExtNum.fin 0 ∧ reg p.1 = none := by
  intro entries
  induction entries with
  | nil =>
    intro nX nY
    simp [accumVars]
  | cons e rest ih =>
    intro nX nY
    obtain ⟨name, w⟩ := e
    by_cases hw : w = ExtNum.fin 0
    · subst hw
      rw [show accumVars reg pm cx cy ((name, ExtNum.fin 0) :: rest) nX nY =
            accumVars reg pm cx cy rest nX nY from by simp [accumVars]]
      rw [ih nX nY]
      constructor
      · rintro ⟨p, hp, hz, hn⟩
        exact ⟨p, List.mem_cons_of_mem _ hp, hz, hn⟩
      · rintro ⟨p, hp, hz, hn⟩
        rcases List.mem_cons.mp hp with rfl | hp'
        · exact absurd rfl hz
        · exact ⟨p, hp', hz, hn⟩
    · simp only [accumVars, if_neg hw]
      cases hr : reg name with
      | none =>
        constructor
        · intro _
          exact ⟨(name, w), List.mem_cons_self _ _, hw, hr⟩
        · intro _
          exact ⟨"Unknown variation function: " ++ name, rfl⟩
      | some vf =>
        by_cases hfin : (ExtNum.isFinite (vf cx cy (pm name)).1 &&
            ExtNum.isFinite (vf cx cy (pm name)).2) = true
        · simp only [hfin, if_true]
          rw [ih]
          constructor
          · rintro ⟨p, hp, hz, hn⟩
            exact ⟨p, List.mem_cons_of_mem _ hp, hz, hn⟩
          · rintro ⟨p, hp, hz, hn⟩
            rcases List.mem_cons.mp hp with rfl | hp'
            · rw [hr] at hn; exact absurd hn (by simp)
            · exact ⟨p, hp', hz, hn⟩
        · simp only [Bool.not_eq_true] at hfin
          simp only [hfin, Bool.false_eq_true, if_false]
          rw [ih]
          constructor
          · rintro ⟨p, hp, hz, hn⟩
            exact ⟨p, List.mem_cons_of_mem _ hp, hz, hn⟩
          · rintro ⟨p, hp, hz, hn⟩
            rcases List.mem_cons.mp hp with rfl | hp'
            · rw [hr] at hn; exact absurd hn (by simp)
            · exact ⟨p, hp', hz, hn⟩

/-- Claim C6: the composer raises a lookup failure if and only if the
variation map holds an entry with non-zero weight whose name the registry
does not contain; zero-weight entries are skipped without lookup, so a
zero-weight unregistered name is not an error. -/
theorem C6_unknown_variation_iff (reg : Registry) (fn : FlameFunction) (x y : ExtNum) :
    (∃ msg, applyFlameFunction reg fn x y = .error msg) ↔
      ∃ p ∈ fn.variations, p.2 ≠ ExtNum.fin 0 ∧ reg p.1 = none := by
  rw [← accumVars_error_iff reg (pmOf fn) (clampC (affX fn x y)) (clampC (affY fn x y))
      fn.variations (.fin 0) (.fin 0)]
  unfold applyFlameFunction
  cases hacc : accumVars reg (pmOf fn) (clampC (affX fn x y)) (clampC (affY fn x y))
      fn.variations (.fin 0) (.fin 0) with
  | error msg => simp
  | ok p =>
    obtain ⟨nX, nY⟩ := p
    by_cases hc : (!(ExtNum.isFinite nX) || !(ExtNum.isFinite nY)) = true
    · simp [hc]
    · simp [hc]

/-- Claim C6 witness: a single non-zero-weight unregistered name makes
the composer throw (via the right-to-left direction), while turning its
weight to zero removes the error (left-to-right, by contraposition). -/
theorem C6_witness :
    (∃ msg, applyFlameFunction (fun _ => none)
        ⟨⟨.fin 1, .fin 0, .fin 0, .fin 0, .fin 1, .fin 0⟩, [("nope", .fin 1)], []⟩
        (.fin 0) (.fin 0) = .error msg) ∧
    ¬ (∃ msg, applyFlameFunction (fun _ => none)
        ⟨⟨.fin 1, .fin 0, .fin 0, .fin 0, .fin 1, .fin 0⟩, [("nope", .fin 0)], []⟩
        (.fin 0) (.fin 0) = .error msg) := by
  constructor
  · exact (C6_unknown_variation_iff _ _ _ _).mpr
      ⟨("nope", .fin 1), List.mem_cons_self _ _, by simp, rfl⟩
  · intro h
    rcases (C6_unknown_variation_iff _ _ _ _).mp h with ⟨p, hp, hz, _⟩
    rcases List.mem_cons.mp hp with rfl | hp'
    · exact hz rfl
    · simp at hp'

/-- The identity flame function of the claim: affine `(1,0,0,0,1,0)` and
variation map `{linear: 1}`. -/
def idFlame : FlameFunction :=
  ⟨⟨.fin 1, .fin 0, .fin 0, .fin 0, .fin 1, .fin 0⟩, [("linear", .fin 1)], []⟩

/-- Claim C3, counterexample: with the identity affine matrix and
`{linear: 1}`, the finite input `(200, 0)` is clamped to the ±100 bound
before the variation runs, so the composer returns `(100, 0)`, not the
input point. -/
theorem C3_counterexample :
    applyFlameFunction (fun n => if n = "linear" then some (safeVariation linear) else none)
        idFlame (.fin 200) (.fin 0) = .ok (.fin 100, .fin 0) ∧
    ExtNum.fin 100 ≠ ExtNum.fin 200 := by
  refine ⟨?_, by simp⟩
  simp only [applyFlameFunction, accumVars, affX, affY, clampC, pmOf, idFlame,
    safeVariation, linear, ExtNum.mul, ExtNum.add, ExtNum.ovf, ExtNum.isFinite,
    ExtNum.isNan, ExtNum.jsMin, ExtNum.jsMax, ExtNum.jsLT, ExtNum.OVERFLOW, lookupAssoc,
    Option.getD_some, Option.getD_none, String.reduceEq, reduceIte]
  norm_num

/-- Claim C3, amended: with the identity affine matrix and
`{linear: 1}`, the composer returns exactly the input point for every
finite input within the composer's ±100 clamp bound (inputs beyond the
bound are clamped first, as the counterexample shows). -/
theorem C3_identity_linear (reg : Registry) (x y : ℚ)
    (hreg : reg "linear" = some (safeVariation linear))
    (hx : |x| ≤ 100) (hy : |y| ≤ 100) :
    applyFlameFunction reg idFlame (.fin x) (.fin y) = .ok (.fin x, .fin y) := by
  have h0 : ExtNum.ovf 0 = .fin 0 := ovf_eq_fin_of_abs (by norm_num)
  have hxf : ExtNum.ovf x = .fin x := ovf_eq_fin_of_abs hx
  have hyf : ExtNum.ovf y = .fin y := ovf_eq_fin_of_abs hy
  have haffX : affX idFlame (.fin x) (.fin y) = .fin x := by
    simp only [affX, idFlame, ExtNum.mul, one_mul, zero_mul, hxf, h0, ExtNum.add,
      add_zero, zero_add, hxf]
  have haffY : affY idFlame (.fin x) (.fin y) = .fin y := by
    simp only [affY, idFlame, ExtNum.mul, one_mul, zero_mul, hyf, h0, ExtNum.add,
      add_zero, zero_add, hyf]
  unfold applyFlameFunction
  rw [haffX, haffY, clampC_fin hx, clampC_fin hy]
  have hstep : accumVars reg (pmOf idFlame) (.fin x) (.fin y)
      [("linear", .fin 1)] (.fin 0) (.fin 0) = .ok (.fin x, .fin y) := by
    simp only [accumVars, hreg, safeVariation, linear, ExtNum.isFinite, Bool.and_self,
      if_true, ExtNum.mul, one_mul, ExtNum.add, zero_add, hxf, hyf,
      if_neg (show ¬(ExtNum.fin 1 = ExtNum.fin 0) by simp)]
  rw [show idFlame.variations = [("linear", .fin 1)] from rfl, hstep]
  simp [ExtNum.isFinite]

/-- Claim C3 witness: the source's own smoke test, `(3, 4) ↦ (3, 4)`. -/
theorem C3_witness :
    applyFlameFunction (fun n => if n = "linear" then some (safeVariation linear) else none)
      idFlame (.fin 3) (.fin 4) = .ok (.fin 3, .fin 4) :=
  C3_identity_linear _ 3 4 rfl (by norm_num) (by norm_num)

/-- The cumulative list has one entry per function. -/
theorem cumProbs_length (acc : ℚ) (l : List ℚ) : (cumProbs acc l).length = l.length := by
  induction l generalizing acc with
  | nil => rfl
  | cons p rest ih => simp [cumProbs, ih]

/-- `findIndex` returns the first index whose element satisfies the
predicate. -/
theorem jsFindIndex_eq_some (p : ℚ → Bool) :
    ∀ (l : List ℚ) (i : ℕ), i < l.length → p (l.getD i 0) = true →
      (∀ j, j < i → p (l.getD j 0) = false) → jsFindIndex p l = some i := by
  intro l
  induction l with
  | nil => intro i hi; simp at hi
  | cons a rest ih =>
    intro i hi hp hj
    cases i with
    | zero =>
      simp only [List.getD_cons_zero] at hp
      simp [jsFindIndex, hp]
    | succ k =>
      have ha : p a = false := by simpa using hj 0 (Nat.succ_pos k)
      have hk : jsFindIndex p rest = some k := by
        refine ih k (by simpa using hi) (by simpa using hp) ?_
        intro j hjk
        simpa using hj (j + 1) (by omega)
      simp [jsFindIndex, ha, hk]

/-- `findIndex` returns `-1` when no element satisfies the predicate. -/
theorem jsFindIndex_eq_none (p : ℚ → Bool) :
    ∀ l : List ℚ, (∀ i, i < l.length → p (l.getD i 0) = false) →
      jsFindIndex p l = none := by
  intro l
  induction l with
  | nil => intro _; rfl
  | cons a rest ih =>
    intro h
    have ha : p a = false := by simpa using h 0 (by simp)
    have hr : jsFindIndex p rest = none := by
      refine ih ?_
      intro i hi
      simpa using h (i + 1) (by simpa using hi)
    simp [jsFindIndex, ha, hr]

/-- Claim C7: function selection picks the first index whose cumulative
probability strictly exceeds the drawn `r` (earlier cumulative values all
being `≤ r`), falls back to the last function when no cumulative value
exceeds `r`, and the draw `u * totalProb` for `u ∈ [0, 1)` indeed lies in
`[0, totalProb)` whenever the total probability is positive. -/
theorem C7_selection (probs : List ℚ) (r : ℚ) :
    (∀ i, i < probs.length → r < (cumProbs 0 probs).getD i 0 →
        (∀ j, j < i → (cumProbs 0 probs).getD j 0 ≤ r) → selectIndex probs r = i) ∧
    ((∀ i, i < probs.length → (cumProbs 0 probs).getD i 0 ≤ r) →
        selectIndex probs r = probs.length - 1) ∧
    (∀ u : ℚ, 0 ≤ u → u < 1 → 0 < totalProb probs →
        0 ≤ u * totalProb probs ∧ u * totalProb probs < totalProb probs) := by
  refine ⟨?_, ?_, ?_⟩
  · intro i hi hlt hle
    unfold selectIndex
    rw [jsFindIndex_eq_some _ (cumProbs 0 probs) i (by rwa [cumProbs_length])
      (decide_eq_true hlt) (fun j hj => decide_eq_false (not_lt.mpr (hle j hj)))]
  · intro h
    unfold selectIndex
    rw [jsFindIndex_eq_none _ (cumProbs 0 probs) (fun i hi =>
      decide_eq_false (not_lt.mpr (h i (by rwa [cumProbs_length] at hi))))]
  · intro u hu0 hu1 htot
    exact ⟨mul_nonneg hu0 htot.le, by
      calc u * totalProb probs < 1 * totalProb probs := by
            exact mul_lt_mul_of_pos_right hu1 htot
        _ = totalProb probs := one_mul _⟩

/-- Claim C7 witness: with weights `[1/2, 1/2]` and draw `3/4`, the
second function (index 1) is selected; with every cumulative value at or
below the draw `1`, selection falls back to the last index. -/
theorem C7_witness :
    selectIndex [1/2, 1/2] (3/4) = 1 ∧ selectIndex [1/2, 1/2] 1 = 1 := by
  constructor
  · refine (C7_selection [1/2, 1/2] (3/4)).1 1 (by norm_num) (by norm_num [cumProbs]) ?_
    intro j hj
    interval_cases j
    norm_num [cumProbs]
  · have hyp : ∀ i, i < ([1/2, 1/2] : List ℚ).length → (cumProbs 0 [1/2, 1/2]).getD i 0 ≤ 1 := by
      intro i hi
      simp only [List.length_cons, List.length_nil] at hi
      interval_cases i <;> norm_num [cumProbs]
    have h := (C7_selection [1/2, 1/2] 1).2.1 hyp
    simpa using h

/-- The momentum fold maximum never drops below its initial value. -/
theorem amFold_init_le (l : List AMOrbit) :
    ∀ m : ℚ, m ≤ l.foldl (fun m o => max m |o.total|) m := by
  induction l with
  | nil => intro m; exact le_refl m
  | cons a rest ih =>
    intro m
    simp only [List.foldl_cons]
    exact le_trans (le_max_left _ _) (ih _)

theorem amFold_le (l : List AMOrbit) :
    ∀ (m : ℚ) (o : AMOrbit), o ∈ l → |o.total| ≤ l.foldl (fun m o => max m |o.total|) m := by
  induction l with
  | nil => intro m o ho; simp at ho
  | cons a rest ih =>
    intro m o ho
    rcases List.mem_cons.mp ho with rfl | ho'
    · simp only [List.foldl_cons]
      exact le_trans (le_max_right _ _) (amFold_init_le rest _)
    · simp only [List.foldl_cons]
      exact ih _ o ho'

/-- The fold maximum is the initial value or is attained by a member. -/
theorem amFold_attained (l : List AMOrbit) :
    ∀ m : ℚ, l.foldl (fun m o => max m |o.total|) m = m ∨
      ∃ o ∈ l, l.foldl (fun m o => max m |o.total|) m = |o.total| := by
  induction l with
  | nil => intro m; left; rfl
  | cons a rest ih =>
    intro m
    rcases ih (max m |a.total|) with h | ⟨o, ho, h⟩
    · simp only [List.foldl_cons]
      rcases max_choice m |a.total| with hm | hm
      · left; rw [h, hm]
      · right; exact ⟨a, List.mem_cons_self _ _, by rw [h, hm]⟩
    · right
      exact ⟨o, List.mem_cons_of_mem _ ho, by simpa using h⟩

/-- Claim C8: with no explicit `momentumScale`, if some flushed orbit has
nonzero momentum then the normalization scale equals the maximum `|L|`
over all flushed orbits, that maximum is attained, and every orbit
attaining it receives `t` exactly `1`; with an explicit `momentumScale`,
every orbit receives `t = clamp(|L| / momentumScale, 0, 1)`. -/
theorem C8_momentum_scale (orbitLength : ℕ) (samples : List (ℚ × ℚ)) :
    ((∃ o ∈ amFlushed orbitLength samples, o.total ≠ 0) →
      amScale none (amFlushed orbitLength samples) = amMaxTotal (amFlushed orbitLength samples) ∧
      (∃ o ∈ amFlushed orbitLength samples,
        |o.total| = amMaxTotal (amFlushed orbitLength samples)) ∧
      (∀ o ∈ amFlushed orbitLength samples,
        |o.total| = amMaxTotal (amFlushed orbitLength samples) →
        amT none (amFlushed orbitLength samples) o = 1)) ∧
    (∀ s : ℚ, ∀ o ∈ amFlushed orbitLength samples,
      amT (some s) (amFlushed orbitLength samples) o = clamp01 (|o.total| / s)) := by
  constructor
  · rintro ⟨o0, ho0, hnz⟩
    have hmax_pos : 0 < amMaxTotal (amFlushed orbitLength samples) := by
      have h1 : |o0.total| ≤ amMaxTotal (amFlushed orbitLength samples) :=
        amFold_le _ 0 o0 ho0
      have h2 : 0 < |o0.total| := abs_pos.mpr hnz
      linarith
    have hscale : amScale none (amFlushed orbitLength samples) =
        amMaxTotal (amFlushed orbitLength samples) := by
      unfold amScale
      rw [if_neg (by linarith)]
    refine ⟨hscale, ?_, ?_⟩
    · rcases amFold_attained (amFlushed orbitLength samples) 0 with h | h
      · unfold amMaxTotal at hmax_pos
        rw [h] at hmax_pos
        exact absurd hmax_pos (lt_irrefl 0)
      · obtain ⟨o, ho, hfo⟩ := h
        exact ⟨o, ho, hfo.symm⟩
    · intro o _ ho
      unfold amT
      rw [hscale, ho, div_self (by linarith), clamp01]
      norm_num
  · intro s o _
    rfl

/-- Claim C8 witness: orbit length 2 over four samples gives momenta
`-1` and `-4`; the auto-detected scale is `4`, attained by the second
orbit, whose `t` is exactly `1`; an explicit scale `2` gives the clamp
formula. -/
theorem C8_witness :
    amScale none (amFlushed 2 [(1, 0), (0, 1), (2, 0), (0, 2)]) =
      amMaxTotal (amFlushed 2 [(1, 0), (0, 1), (2, 0), (0, 2)]) ∧
    amT none (amFlushed 2 [(1, 0), (0, 1), (2, 0), (0, 2)]) ⟨[2, 0], [0, 2], -4⟩ = 1 ∧
    amT (some 2) (amFlushed 2 [(1, 0), (0, 1), (2, 0), (0, 2)]) ⟨[1, 0], [0, 1], -1⟩ =
      clamp01 (|(-1 : ℚ)| / 2) := by
  have hfl : amFlushed 2 [(1, 0), (0, 1), (2, 0), (0, 2)] =
      [⟨[1, 0], [0, 1], -1⟩, ⟨[2, 0], [0, 2], -4⟩] := by
    simp [amFlushed, amRun, amAccum, amPushOrbit, amMomentum, List.foldl]
    norm_num
  have h := C8_momentum_scale 2 [(1, 0), (0, 1), (2, 0), (0, 2)]
  have hmem : (⟨[2, 0], [0, 2], -4⟩ : AMOrbit) ∈ amFlushed 2 [(1, 0), (0, 1), (2, 0), (0, 2)] := by
    rw [hfl]; simp
  have hmax : amMaxTotal (amFlushed 2 [(1, 0), (0, 1), (2, 0), (0, 2)]) = 4 := by
    rw [hfl]
    norm_num [amMaxTotal, List.foldl]
  obtain ⟨h1, _, h3⟩ := h.1 ⟨⟨[2, 0], [0, 2], -4⟩, hmem, by norm_num⟩
  refine ⟨h1, h3 _ hmem (by rw [hmax]; norm_num), ?_⟩
  have hmem1 : (⟨[1, 0], [0, 1], -1⟩ : AMOrbit) ∈ amFlushed 2 [(1, 0), (0, 1), (2, 0), (0, 2)] := by
    rw [hfl]; simp
  exact h.2 2 _ hmem1

/-- Hex digits have code points in `[48, 102]`. -/
theorem hex_toNat_bounds {c : Char} (h : isHexDigitChar c = true) :
    48 ≤ c.toNat ∧ c.toNat ≤ 102 := by
  simp only [isHexDigitChar, Bool.or_eq_true, Bool.and_eq_true, decide_eq_true_eq] at h
  omega

/-- Hex digits are not `parseInt` whitespace. -/
theorem hex_not_ws {c : Char} (h : isHexDigitChar c = true) : isJsWhitespace c = false := by
  have hb := hex_toNat_bounds h
  simp only [isJsWhitespace, Bool.or_eq_false_iff, decide_eq_false_iff_not]
  omega

/-- Hex digits have values at most 15. -/
theorem hexVal_le_15 {c : Char} (h : isHexDigitChar c = true) : hexVal c ≤ 15 := by
  unfold hexVal
  split
  · rename_i h1
    simp only [Bool.and_eq_true, decide_eq_true_eq] at h1
    omega
  · split
    · rename_i h1
      simp only [Bool.and_eq_true, decide_eq_true_eq] at h1
      omega
    · split
      · rename_i h1
        simp only [Bool.and_eq_true, decide_eq_true_eq] at h1
        omega
      · omega

/-- A hex digit is none of the special characters consumed before the
digit run (`-`, `+`, `x`, `X`): their code points (45, 43, 120, 88) lie
outside all three digit ranges. -/
theorem hex_ne_special {c : Char} (h : isHexDigitChar c = true) :
    c ≠ '-' ∧ c ≠ '+' ∧ c ≠ 'x' ∧ c ≠ 'X' := by
  have hb : ((48 ≤ c.toNat ∧ c.toNat ≤ 57) ∨ (97 ≤ c.toNat ∧ c.toNat ≤ 102)) ∨
      (65 ≤ c.toNat ∧ c.toNat ≤ 70) := by
    simpa [isHexDigitChar, Bool.or_eq_true, Bool.and_eq_true, decide_eq_true_eq] using h
  refine ⟨fun hc => ?_, fun hc => ?_, fun hc => ?_, fun hc => ?_⟩ <;>
    rw [hc] at hb <;> revert hb <;> decide

/-- `parseInt(a + b, 16)` on a two-hex-digit string returns the
positional value. -/
theorem jsParseIntHex_pair {a b : Char} (ha : isHexDigitChar a = true)
    (hb : isHexDigitChar b = true) :
    jsParseIntHex [a, b] = some ((hexVal a * 16 + hexVal b : ℕ) : ℤ) := by
  obtain ⟨hane, _, _, _⟩ := hex_ne_special ha
  obtain ⟨_, _, hbx, hbX⟩ := hex_ne_special hb
  have hdrop : List.dropWhile isJsWhitespace [a, b] = [a, b] := by
    rw [List.dropWhile_cons, hex_not_ws ha]
    simp
  have hplus : a ≠ '+' := (hex_ne_special ha).2.1
  have hstrip : strip0x [a, b] = [a, b] := by
    have hcond : ¬(a = '0' ∧ (b = 'x' ∨ b = 'X')) := by
      rintro ⟨rfl, rfl | rfl⟩
      · exact hbx rfl
      · exact hbX rfl
    show (if a = '0' ∧ (b = 'x' ∨ b = 'X') then ([] : List Char) else [a, b]) = [a, b]
    rw [if_neg hcond]
  have htake : List.takeWhile isHexDigitChar [a, b] = [a, b] := by
    rw [List.takeWhile_cons, ha]
    simp [List.takeWhile_cons, hb]
  unfold jsParseIntHex
  rw [hdrop]
  simp only [if_neg hane, if_neg hplus]
  rw [hstrip]
  unfold parseHexDigits
  rw [htake]
  simp [List.foldl]

/-- A channel built from two hex digits exists and lies in `[0, 1]`. -/
theorem hexChannel_pair {a b : Char} (ha : isHexDigitChar a = true)
    (hb : isHexDigitChar b = true) :
    ∃ q : ℚ, hexChannel [a, b] = some q ∧ 0 ≤ q ∧ q ≤ 1 := by
  refine ⟨((hexVal a * 16 + hexVal b : ℕ) : ℚ) / 255, ?_, ?_, ?_⟩
  · unfold hexChannel
    rw [jsParseIntHex_pair ha hb]
    simp
  · positivity
  · rw [div_le_one (by norm_num)]
    have h1 := hexVal_le_15 ha
    have h2 := hexVal_le_15 hb
    have : (hexVal a * 16 + hexVal b : ℕ) ≤ 255 := by omega
    exact_mod_cast le_trans (Nat.cast_le.mpr this) (by norm_num)

/-- Claim C9, counterexample: the string `fff` is not of the form
`#rgb`/`#rrggbb` (the specification's well-formedness), yet palette
construction accepts it — the leading `#` is optional in the code, so
this malformed input does not fail. -/
theorem C9_counterexample :
    specHexForm "fff" = false ∧ (createPaletteRGB ["fff"]).isOk = true := by
  constructor
  · decide
  · decide

/-- Claim C9, amended: palette construction from an inline hex array
fails exactly when some entry, after optionally stripping a leading `#`,
has length other than 3 and 6 — hex-digit validity is not checked (a
digit-sized string of invalid characters is accepted, its channels
becoming NaN), and the `#` is optional.  For strings that are well-formed
in the specification's sense (`#rgb`/`#rrggbb` with valid hex digits)
parsing succeeds and every RGB channel is a rational in `[0, 1]`. -/
theorem C9_hex_palette :
    (∀ s : String, (parseHexColor s).isOk = false ↔
        ¬((stripHash s.toList).length = 3 ∨ (stripHash s.toList).length = 6)) ∧
    (∀ colors : List String, (createPaletteRGB colors).isOk = false ↔
        ∃ c ∈ colors, (parseHexColor c).isOk = false) ∧
    (∀ s : String, specHexForm s = true →
        ∃ r g b : ℚ, parseHexColor s = .ok (some r, some g, some b) ∧
          0 ≤ r ∧ r ≤ 1 ∧ 0 ≤ g ∧ g ≤ 1 ∧ 0 ≤ b ∧ b ≤ 1) := by
  refine ⟨?_, ?_, ?_⟩
  · intro s
    unfold parseHexColor
    simp only [String.toList]
    rcases hsh : stripHash s.data with - | ⟨c0, - | ⟨c1, - | ⟨c2, - | ⟨c3, - | ⟨c4,
        - | ⟨c5, - | ⟨c6, t⟩⟩⟩⟩⟩⟩⟩ <;>
      simp [parseHexColorL, hsh, Except.isOk, Except.toBool]
  · intro colors
    induction colors with
    | nil =>
      constructor
      · intro h
        simp [createPaletteRGB, Except.isOk, Except.toBool] at h
      · rintro ⟨c, hc, -⟩
        simp at hc
    | cons c rest ih =>
      cases hc : parseHexColor c with
      | error e =>
        constructor
        · intro _
          exact ⟨c, List.mem_cons_self _ _, by simp [hc, Except.isOk, Except.toBool]⟩
        · intro _
          simp [createPaletteRGB, hc, Except.isOk, Except.toBool]
      | ok col =>
        cases hr : createPaletteRGB rest with
        | error e =>
          constructor
          · intro _
            obtain ⟨c', hc', hf⟩ := ih.mp (by simp [hr, Except.isOk, Except.toBool])
            exact ⟨c', List.mem_cons_of_mem _ hc', hf⟩
          · intro _
            simp [createPaletteRGB, hc, hr, Except.isOk, Except.toBool]
        | ok cols =>
          constructor
          · intro h
            rw [show createPaletteRGB (c :: rest) = .ok (col :: cols) from by
              simp [createPaletteRGB, hc, hr]] at h
            simp [Except.isOk, Except.toBool] at h
          · rintro ⟨c', hc', hf⟩
            rcases List.mem_cons.mp hc' with rfl | hc''
            · rw [hc] at hf
              simp [Except.isOk, Except.toBool] at hf
            · have hx := ih.mpr ⟨c', hc'', hf⟩
              rw [hr] at hx
              simp [Except.isOk, Except.toBool] at hx
  · intro s hs
    unfold specHexForm at hs
    unfold parseHexColor
    rcases hl : s.toList with - | ⟨c0, - | ⟨c1, - | ⟨c2, - | ⟨c3, - | ⟨c4,
        - | ⟨c5, - | ⟨c6, - | ⟨c7, t⟩⟩⟩⟩⟩⟩⟩⟩ <;>
      (try rw [hl] at hs) <;> (try rw [show s.data = _ from hl] at hs) <;>
      try exact Bool.noConfusion hs
    · -- length 4: #rgb
      have hs4 : (decide (c0 = '#') && isHexDigitChar c1 && isHexDigitChar c2 &&
          isHexDigitChar c3) = true := hs
      simp only [Bool.and_eq_true, decide_eq_true_eq] at hs4
      obtain ⟨⟨⟨h0, h1⟩, h2⟩, h3⟩ := hs4
      subst h0
      have hpl : parseHexColorL ('#' :: [c1, c2, c3]) =
          .ok (hexChannel [c1, c1], hexChannel [c2, c2], hexChannel [c3, c3]) := by
        simp [parseHexColorL, stripHash]
      obtain ⟨r, hr, hr0, hr1⟩ := hexChannel_pair h1 h1
      obtain ⟨g, hg, hg0, hg1⟩ := hexChannel_pair h2 h2
      obtain ⟨b, hb, hb0, hb1⟩ := hexChannel_pair h3 h3
      exact ⟨r, g, b, by rw [hpl, hr, hg, hb], hr0, hr1, hg0, hg1, hb0, hb1⟩
    · -- length 7: #rrggbb
      have hs7 : (decide (c0 = '#') && isHexDigitChar c1 && isHexDigitChar c2 &&
          isHexDigitChar c3 && isHexDigitChar c4 && isHexDigitChar c5 &&
          isHexDigitChar c6) = true := hs
      simp only [Bool.and_eq_true, decide_eq_true_eq] at hs7
      obtain ⟨⟨⟨⟨⟨⟨h0, h1⟩, h2⟩, h3⟩, h4⟩, h5⟩, h6⟩ := hs7
      subst h0
      have hpl : parseHexColorL ('#' :: [c1, c2, c3, c4, c5, c6]) =
          .ok (hexChannel [c1, c2], hexChannel [c3, c4], hexChannel [c5, c6]) := by
        simp [parseHexColorL, stripHash]
      obtain ⟨r, hr, hr0, hr1⟩ := hexChannel_pair h1 h2
      obtain ⟨g, hg, hg0, hg1⟩ := hexChannel_pair h3 h4
      obtain ⟨b, hb, hb0, hb1⟩ := hexChannel_pair h5 h6
      exact ⟨r, g, b, by rw [hpl, hr, hg, hb], hr0, hr1, hg0, hg1, hb0, hb1⟩

/-- Claim C9 witness: the specification-well-formed string `#abc` parses
into three in-range channels. -/
theorem C9_witness :
    ∃ r g b : ℚ, parseHexColor "#abc" = .ok (some r, some g, some b) ∧
      0 ≤ r ∧ r ≤ 1 ∧ 0 ≤ g ∧ g ≤ 1 ∧ 0 ≤ b ∧ b ≤ 1 :=
  C9_hex_palette.2.2 "#abc" (by decide)

/-- The byte value a positive-count pixel write stores at channel `k`
(`k = 0, 1, 2` the tone-mapped RGB channels, `k = 3` the alpha 255). -/
noncomputable def pixByteAt (st : CtxState) (col row k : ℕ) : ℤ :=
  if k = 0 then clampByte (toneByte st.gamma (hdrOf st (blockR st col row)))
  else if k = 1 then clampByte (toneByte st.gamma (hdrOf st (blockG st col row)))
  else if k = 2 then clampByte (toneByte st.gamma (hdrOf st (blockB st col row)))
  else 255

/-- Writing pixel `q` leaves the bytes of every other pixel `p` alone. -/
theorem writePix_other (st : CtxState) (buf : ℕ → ℤ) (q p k : ℕ) (hk : k < 4)
    (hne : q ≠ p) : writePix st buf q (4 * p + k) = buf (4 * p + k) := by
  by_cases hc : 0 < blockCount st (q % st.width) (q / st.width)
  · simp only [writePix, hc, if_true]
    have h0 : ¬(4 * p + k = 4 * q) := by omega
    have h1 : ¬(4 * p + k = 4 * q + 1) := by omega
    have h2 : ¬(4 * p + k = 4 * q + 2) := by omega
    have h3 : ¬(4 * p + k = 4 * q + 3) := by omega
    rw [if_neg h0, if_neg h1, if_neg h2, if_neg h3]
  · simp only [writePix]
    rw [if_neg hc]

/-- A pixel absent from the worklist keeps its buffer bytes. -/
theorem foldl_writePix_not_mem (st : CtxState) (l : List ℕ) (buf : ℕ → ℤ) (p k : ℕ)
    (hk : k < 4) (hp : p ∉ l) :
    (l.foldl (writePix st) buf) (4 * p + k) = buf (4 * p + k) := by
  induction l generalizing buf with
  | nil => rfl
  | cons q rest ih =>
    rw [List.foldl_cons]
    have hql : p ∉ rest := fun h => hp (List.mem_cons_of_mem _ h)
    have hq : q ≠ p := fun h => hp (h ▸ List.mem_cons_self _ _)
    rw [ih _ hql, writePix_other st buf q p k hk hq]

/-- The bytes of a pixel on a duplicate-free worklist: its own write when
the block count is positive, the original buffer otherwise. -/
theorem foldl_writePix_mem (st : CtxState) (l : List ℕ) (buf : ℕ → ℤ) (p k : ℕ)
    (hk : k < 4) (hnd : l.Nodup) (hp : p ∈ l) :
    (l.foldl (writePix st) buf) (4 * p + k) =
      if 0 < blockCount st (p % st.width) (p / st.width) then
        pixByteAt st (p % st.width) (p / st.width) k
      else buf (4 * p + k) := by
  induction l generalizing buf with
  | nil => cases hp
  | cons q rest ih =>
    rw [List.foldl_cons]
    rcases List.mem_cons.mp hp with rfl | hp'
    · have hqnot : p ∉ rest := (List.nodup_cons.mp hnd).1
      rw [foldl_writePix_not_mem st rest _ p k hk hqnot]
      by_cases hc : 0 < blockCount st (p % st.width) (p / st.width)
      · rw [if_pos hc]
        simp only [writePix, hc, if_true]
        interval_cases k
        · simp [pixByteAt]
        · have h0 : ¬(4 * p + 1 = 4 * p) := by omega
          simp [pixByteAt, h0]
        · have h0 : ¬(4 * p + 2 = 4 * p) := by omega
          have h1 : ¬(4 * p + 2 = 4 * p + 1) := by omega
          simp [pixByteAt, h0, h1]
        · have h0 : ¬(4 * p + 3 = 4 * p) := by omega
          have h1 : ¬(4 * p + 3 = 4 * p + 1) := by omega
          have h2 : ¬(4 * p + 3 = 4 * p + 2) := by omega
          simp [pixByteAt, h0, h1, h2]
      · rw [if_neg hc]
        simp only [writePix]
        rw [if_neg hc]
    · have hq : q ≠ p := fun h => (List.nodup_cons.mp hnd).1 (h ▸ hp')
      rw [ih _ (List.nodup_cons.mp hnd).2 hp', writePix_other st buf q p k hk hq]

/-- An integral supersample factor passes through
`Math.max(1, Math.floor(·))` unchanged. -/
theorem ctxScale_eq (st : CtxState) (n : ℕ) (hn : 1 ≤ n)
    (h : st.supersample = (n : ℚ)) : ctxScale st = n := by
  unfold ctxScale
  rw [h, Int.floor_natCast, Int.toNat_natCast]
  exact max_eq_right hn

/-- For positive gamma and a nonnegative HDR value, the tone-mapped byte
lies in `[0, 254]`: the Reinhard map keeps the base in `[0, 1)` and a
positive exponent keeps the power there, so flooring `· * 255` cannot
reach 255. -/
theorem toneByte_range (gamma v : ℚ) (hg : 0 < gamma) (hv : 0 ≤ v) :
    0 ≤ toneByte gamma v ∧ toneByte gamma v ≤ 254 := by
  unfold toneByte
  have hv' : (0 : ℝ) ≤ (v : ℝ) := by exact_mod_cast hv
  have hd : (0 : ℝ) < 1 + (v : ℝ) := by linarith
  have hm0 : (0 : ℝ) ≤ (v : ℝ) / (1 + (v : ℝ)) := div_nonneg hv' hd.le
  have hm1 : (v : ℝ) / (1 + (v : ℝ)) < 1 := by
    rw [div_lt_one hd]
    linarith
  have hgr : (0 : ℝ) < (gamma : ℝ) := by exact_mod_cast hg
  have hz : (0 : ℝ) < 1 / (gamma : ℝ) := by positivity
  constructor
  · apply Int.floor_nonneg.mpr
    have hr : 0 ≤ Real.rpow ((v : ℝ) / (1 + (v : ℝ))) (1 / (gamma : ℝ)) :=
      Real.rpow_nonneg hm0 (1 / (gamma : ℝ))
    exact mul_nonneg hr (by norm_num)
  · have hlt : Real.rpow ((v : ℝ) / (1 + (v : ℝ))) (1 / (gamma : ℝ)) < 1 :=
      Real.rpow_lt_one hm0 hm1 hz
    have hmul : Real.rpow ((v : ℝ) / (1 + (v : ℝ))) (1 / (gamma : ℝ)) * 255 < 255 := by
      nlinarith
    have hfl : ⌊Real.rpow ((v : ℝ) / (1 + (v : ℝ))) (1 / (gamma : ℝ)) * 255⌋ < (255 : ℤ) := by
      apply Int.floor_lt.mpr
      exact_mod_cast hmul
    omega

/-- Bytes already in range pass through the `Uint8ClampedArray` clamp. -/
theorem clampByte_eq_self {z : ℤ} (h0 : 0 ≤ z) (h1 : z ≤ 254) : clampByte z = z := by
  unfold clampByte
  rw [max_eq_right h0, min_eq_right (by omega)]

/-- A filtered-and-mapped sum of nonnegative values is nonnegative. -/
theorem sumFilter_nonneg (l : List CSample) (f : CSample → ℚ)
    (hf : ∀ s ∈ l, 0 ≤ f s) (pred : CSample → Bool) :
    0 ≤ ((l.filter pred).map f).sum := by
  apply List.sum_nonneg
  intro q hq
  obtain ⟨s, hs, rfl⟩ := List.mem_map.mp hq
  exact hf s (List.mem_filter.mp hs).1

/-- The HDR average over a block with nonnegative per-cell sums is
nonnegative. -/
theorem hdrOf_nonneg (st : CtxState) (sum : ℚ) (h : 0 ≤ sum) : 0 ≤ hdrOf st sum := by
  unfold hdrOf
  positivity

/-- The HDR average is the block sum divided by the squared supersample
factor. -/
theorem hdrOf_eq (st : CtxState) (n : ℕ) (hscale : ctxScale st = n) (sum : ℚ) :
    hdrOf st sum = sum / ((n : ℚ) ^ 2) := by
  unfold hdrOf
  rw [hscale, mul_one_div, sq]

/-- Claim C4: at `finalize`, with a positive-integer supersample factor
`n`, positive gamma, and nonnegative committed colors, every output pixel
with a nonzero downsampled hit count gets each RGB channel equal to
`⌊(v/(1+v))^(1/gamma) · 255⌋` where `v` is that channel's block sum
divided by `n²`, and alpha byte 255; every pixel whose hit count is zero
keeps all four of its original buffer bytes (alpha stays 0 for a
zero-initialized buffer). -/
theorem C4_finalize_tonemap (st : CtxState) (buf0 : ℕ → ℤ) (n : ℕ) (hn : 1 ≤ n)
    (hss : st.supersample = (n : ℚ)) (hg : 0 < st.gamma)
    (hcol : ∀ s ∈ st.samples, 0 ≤ s.r ∧ 0 ≤ s.g ∧ 0 ≤ s.b)
    (col row : ℕ) (hc : col < st.width) (hr : row < st.height) :
    (0 < blockCount st col row →
      finalizeBuf st buf0 (4 * (row * st.width + col)) =
        toneByte st.gamma (blockR st col row / ((n : ℚ) ^ 2)) ∧
      finalizeBuf st buf0 (4 * (row * st.width + col) + 1) =
        toneByte st.gamma (blockG st col row / ((n : ℚ) ^ 2)) ∧
      finalizeBuf st buf0 (4 * (row * st.width + col) + 2) =
        toneByte st.gamma (blockB st col row / ((n : ℚ) ^ 2)) ∧
      finalizeBuf st buf0 (4 * (row * st.width + col) + 3) = 255) ∧
    (blockCount st col row = 0 →
      ∀ k, k < 4 → finalizeBuf st buf0 (4 * (row * st.width + col) + k) =
        buf0 (4 * (row * st.width + col) + k)) := by
  have hscale := ctxScale_eq st n hn hss
  have hwpos : 0 < st.width := by omega
  have hpm : (row * st.width + col) % st.width = col := by
    rw [Nat.mul_comm row st.width, Nat.mul_add_mod]
    exact Nat.mod_eq_of_lt hc
  have hpd : (row * st.width + col) / st.width = row := by
    rw [Nat.mul_comm row st.width, Nat.mul_add_div hwpos, Nat.div_eq_of_lt hc, Nat.add_zero]
  have hmem : row * st.width + col ∈ List.range (st.width * st.height) := by
    rw [List.mem_range]
    calc row * st.width + col < (row + 1) * st.width := by
          rw [Nat.add_mul, Nat.one_mul]
          omega
      _ ≤ st.height * st.width := Nat.mul_le_mul_right _ (by omega)
      _ = st.width * st.height := Nat.mul_comm _ _
  have hkey : ∀ k, k < 4 → finalizeBuf st buf0 (4 * (row * st.width + col) + k) =
      if 0 < blockCount st col row then pixByteAt st col row k
      else buf0 (4 * (row * st.width + col) + k) := by
    intro k hk
    unfold finalizeBuf
    rw [foldl_writePix_mem st _ buf0 (row * st.width + col) k hk (List.nodup_range _) hmem,
      hpm, hpd]
  constructor
  · intro hcnt
    have hRn : 0 ≤ blockR st col row := by
      unfold blockR
      refine Finset.sum_nonneg fun j _ => Finset.sum_nonneg fun i _ => ?_
      exact sumFilter_nonneg st.samples CSample.r (fun s hs => (hcol s hs).1) _
    have hGn : 0 ≤ blockG st col row := by
      unfold blockG
      refine Finset.sum_nonneg fun j _ => Finset.sum_nonneg fun i _ => ?_
      exact sumFilter_nonneg st.samples CSample.g (fun s hs => (hcol s hs).2.1) _
    have hBn : 0 ≤ blockB st col row := by
      unfold blockB
      refine Finset.sum_nonneg fun j _ => Finset.sum_nonneg fun i _ => ?_
      exact sumFilter_nonneg st.samples CSample.b (fun s hs => (hcol s hs).2.2) _
    have hch : ∀ sum : ℚ, 0 ≤ sum →
        clampByte (toneByte st.gamma (hdrOf st sum)) =
          toneByte st.gamma (sum / ((n : ℚ) ^ 2)) := by
      intro sum hsum
      obtain ⟨hlo, hhi⟩ := toneByte_range st.gamma (hdrOf st sum) hg (hdrOf_nonneg st sum hsum)
      rw [clampByte_eq_self hlo hhi, hdrOf_eq st n hscale]
    refine ⟨?_, ?_, ?_, ?_⟩
    · have h0 := hkey 0 (by omega)
      rw [if_pos hcnt] at h0
      rw [show 4 * (row * st.width + col) = 4 * (row * st.width + col) + 0 from rfl, h0]
      simp only [pixByteAt, if_pos rfl]
      exact hch _ hRn
    · have h1 := hkey 1 (by omega)
      rw [if_pos hcnt] at h1
      rw [h1]
      simp only [pixByteAt]
      norm_num
      exact hch _ hGn
    · have h2 := hkey 2 (by omega)
      rw [if_pos hcnt] at h2
      rw [h2]
      simp only [pixByteAt]
      norm_num
      exact hch _ hBn
    · have h3 := hkey 3 (by omega)
      rw [if_pos hcnt] at h3
      rw [h3]
      simp [pixByteAt]
  · intro hcnt k hk
    have h := hkey k hk
    rw [if_neg (by omega)] at h
    exact h

/-- Claim C4 witness: a 1×1 canvas, supersample 1, gamma 1, one white
sample: the pixel's count is 1, each HDR channel is 1, the tone-mapped
byte is `⌊(1/2)·255⌋ = 127`, and alpha is 255. -/
theorem C4_witness :
    finalizeBuf ⟨1, 1, 1, 1, [⟨0, 0, 1, 1, 1⟩]⟩ (fun _ => 0) 0 = 127 ∧
    finalizeBuf ⟨1, 1, 1, 1, [⟨0, 0, 1, 1, 1⟩]⟩ (fun _ => 0) 3 = 255 := by
  have hcnt : 0 < blockCount ⟨1, 1, 1, 1, [⟨0, 0, 1, 1, 1⟩]⟩ 0 0 := by
    have : blockCount ⟨1, 1, 1, 1, [⟨0, 0, 1, 1, 1⟩]⟩ 0 0 = 1 := by
      simp [blockCount, ctxScale, hist, cellOf, blockIdx, highWidth, highHeight,
        minXOf, maxXOf, minYOf, maxYOf, rangeX, rangeY]
    omega
  have h := C4_finalize_tonemap ⟨1, 1, 1, 1, [⟨0, 0, 1, 1, 1⟩]⟩ (fun _ => 0) 1
    le_rfl (by norm_num) (by norm_num) (by norm_num) 0 0 (by norm_num) (by norm_num)
  obtain ⟨hR, -, -, hA⟩ := h.1 hcnt
  have hblockR : blockR ⟨1, 1, 1, 1, [⟨0, 0, 1, 1, 1⟩]⟩ 0 0 = 1 := by
    simp [blockR, cellR, ctxScale, cellOf, blockIdx, highWidth, highHeight,
      minXOf, maxXOf, minYOf, maxYOf, rangeX, rangeY]
  have htone : toneByte 1 1 = 127 := by
    unfold toneByte
    have hpow : Real.rpow (((1 : ℚ) : ℝ) / (1 + ((1 : ℚ) : ℝ))) (1 / ((1 : ℚ) : ℝ)) =
        1 / 2 := by
      rw [show ((1 : ℚ) : ℝ) / (1 + ((1 : ℚ) : ℝ)) = 1 / 2 by norm_num,
        show (1 : ℝ) / ((1 : ℚ) : ℝ) = 1 by norm_num]
      exact Real.rpow_one _
    rw [hpow, show (1 : ℝ) / 2 * 255 = 127.5 by norm_num]
    rw [Int.floor_eq_iff]
    constructor <;> norm_num
  constructor
  · norm_num at hR
    rw [hblockR, htone] at hR
    exact hR
  · norm_num at hA
    exact hA

end Flamelet
